import Mathlib

/-!
Shallow embedding of the `mugen` synthesizer core (Rust) and proofs about it.

Conventions used throughout:
* Rust `f32`/`f64` values are modelled as exact rationals (`ℚ`) wherever the
  program only performs arithmetic whose result the claim inspects exactly
  (multiplication by constants, clamping, comparison against literals).
  Where a claim's truth depends on NaN inputs (the ADSR duration fields,
  the volume write), a float is modelled by the inductive `FQ` (`nan` or a
  finite rational value).
* Rust `u32`/`u64` are modelled as `ℕ`, `i32` as `ℤ`; overflow is irrelevant
  at every point a claim touches (counters start at 0 and only the zero /
  sign behaviour is at stake), except `as u64` saturating casts which are
  modelled explicitly.
* Stateful iterators (`AdsrSource`, `TapSource`) become explicit state
  records with a `next` function returning `Option ℚ × state`; the wrapped
  upstream source becomes a finite list of pending samples.
* `std::sync` locks are modelled by a boolean `lockOk` parameter: `true`
  means every `lock()` in the operation succeeds, `false` means the mutex is
  poisoned and every `lock()` returns `Err` (poisoning is sticky in Rust, so
  one flag per operation is faithful).
-/

namespace Mugen

/-- An `f32` that is either NaN or a finite value (infinities never arise
in any claimed scenario). -/
inductive FQ where
  | nan
  | val (q : ℚ)
  deriving Repr, DecidableEq

/-! ## src/state.rs — the settings store (`AudioState`)

`AudioState` holds `volume : f32` and `paused : bool` behind independent
locks, plus optional change-notification handles.  The notification handles
and the audio-source field have no influence on the stored volume/mute
values, so the model keeps just the two observable fields; the `Notify`
side effect of `set_volume` / `toggle_muted` is not observable through any
claimed property.  The volume is a user-supplied float, so it is modelled
NaN-aware as `FQ`. -/

structure AudioState where
  volume : FQ
  paused : Bool
  deriving Repr, DecidableEq

/-- Embeds `AudioState::new`: volume starts at `1.0`, paused (mute) at `false`. -/
def AudioState.new : AudioState :=
  { volume := .val 1, paused := false }

/-- Rust `f32::clamp(self, min, max)` for non-NaN finite values:
`if self < min { min } else if self > max { max } else { self }`. -/
def rustClamp (x lo hi : ℚ) : ℚ :=
  if x < lo then lo else if x > hi then hi else x

/-- Rust `f32::clamp(self, min, max)` on a possibly-NaN value: for NaN
`self`, both `self < min` and `self > max` are false, so both branches
fall through and NaN is returned unchanged. -/
def FQ.clamp : FQ → ℚ → ℚ → FQ
  | .nan, _, _ => .nan
  | .val x, lo, hi => .val (rustClamp x lo hi)

/-- Embeds `AudioState::set_volume`: stores `vol.clamp(0.0, 1.0)`. -/
def AudioState.set_volume (s : AudioState) (vol : FQ) : AudioState :=
  { s with volume := vol.clamp 0 1 }

/-- Embeds `AudioState::toggle_muted`: flips `paused` and returns the new value
(returned second component). -/
def AudioState.toggle_muted (s : AudioState) : AudioState × Bool :=
  let p := !s.paused
  ({ s with paused := p }, p)

/-! ## src/key.rs — notes and keys -/

inductive Note where
  | C | Db | D | Eb | E | F | Gb | G | Ab | A | Bb | B
  deriving Repr, DecidableEq

/-- Embeds `Note::semitone`: the `#[repr(u8)]` discriminant as `i32`. -/
def Note.semitone : Note → ℤ
  | .C => 0 | .Db => 1 | .D => 2 | .Eb => 3 | .E => 4 | .F => 5
  | .Gb => 6 | .G => 7 | .Ab => 8 | .A => 9 | .Bb => 10 | .B => 11

/-- Modelled from the spec: the constant `SEMITONES_PER_OCTAVE` lives in
`src/config.rs`, which is not among the provided sources.  The spec fixes it:
"absolute_semitone = octave * 12 + note.semitone" and "one of 12 pitch
classes". -/
def SEMITONES_PER_OCTAVE : ℤ := 12

structure Key where
  note : Note
  octave : ℤ
  deriving Repr, DecidableEq

/-- Embeds `Key::new`. -/
def Key.new (note : Note) (octave : ℤ) : Key := ⟨note, octave⟩

/-- Embeds `Key::absolute_semitone = octave * SEMITONES_PER_OCTAVE + note.semitone`. -/
def Key.absolute_semitone (k : Key) : ℤ :=
  k.octave * SEMITONES_PER_OCTAVE + k.note.semitone

/-- The `match new_note_value { 0 => C, ... 11 => B, _ => unreachable! }`
inside `Key::transpose`.  The `unreachable!` arm (a Rust panic) is modelled
as `Note.C`; it is indeed unreachable since the scrutinee is
`rem_euclid SEMITONES_PER_OCTAVE ∈ [0, 12)`. -/
def noteOfValue (v : ℤ) : Note :=
  if v = 0 then .C else if v = 1 then .Db else if v = 2 then .D
  else if v = 3 then .Eb else if v = 4 then .E else if v = 5 then .F
  else if v = 6 then .Gb else if v = 7 then .G else if v = 8 then .Ab
  else if v = 9 then .A else if v = 10 then .Bb else if v = 11 then .B
  else .C

/-- Embeds `Key::transpose`: recompute note and octave from
`absolute_semitone + semitones` with Euclidean division
(`div_euclid` = `Int.ediv`, `rem_euclid` = `Int.emod`). -/
def Key.transpose (k : Key) (semitones : ℤ) : Key :=
  let new_absolute := k.absolute_semitone + semitones
  let new_octave := new_absolute / SEMITONES_PER_OCTAVE
  let new_note_value := new_absolute % SEMITONES_PER_OCTAVE
  Key.new (noteOfValue new_note_value) new_octave

/-- Modelled from the spec: `KEYBOARD_BASE_OCTAVE` lives in the missing
`src/config.rs`; the spec's end-to-end property says "key A pressed
(Key C, octave 4)", fixing the base octave at 4. -/
def KEYBOARD_BASE_OCTAVE : ℤ := 4

/-- The `device_query::Keycode` values `Key::from_keycode` matches on;
`other` stands for every keycode hitting the wildcard `_ => None` arm. -/
inductive Keycode where
  | A | S | D | F | G | H | J | K | L | Semicolon | Apostrophe
  | W | E | T | Y | U | O | P
  | other
  deriving Repr, DecidableEq

/-- Embeds `Key::from_keycode`: the QWERTY-row-to-key mapping. -/
def Key.from_keycode (key : Keycode) : Option Key :=
  let base := KEYBOARD_BASE_OCTAVE
  match key with
  | .A => some (Key.new .C base)
  | .S => some (Key.new .D base)
  | .D => some (Key.new .E base)
  | .F => some (Key.new .F base)
  | .G => some (Key.new .G base)
  | .H => some (Key.new .A base)
  | .J => some (Key.new .B base)
  | .K => some (Key.new .C (base + 1))
  | .L => some (Key.new .D (base + 1))
  | .Semicolon => some (Key.new .E (base + 1))
  | .Apostrophe => some (Key.new .F (base + 1))
  | .W => some (Key.new .Db base)
  | .E => some (Key.new .Eb base)
  | .T => some (Key.new .Gb base)
  | .Y => some (Key.new .Ab base)
  | .U => some (Key.new .Bb base)
  | .O => some (Key.new .Db (base + 1))
  | .P => some (Key.new .Eb (base + 1))
  | .other => none

/-! ## src/play.rs — the voice manager (`Play`)

`Play.active_sinks : HashMap<Keycode, Sink>` is modelled by the list of
keycodes currently holding a voice (the `Sink` payloads carry no state any
claim inspects; `HashMap` keys are unique, mirrored by the `Nodup`
invariant).  `play_note`'s side effects (building the source chain, setting
sink volume/pause, appending) only construct the sink value, so they do not
appear in the voice-map model. -/

/-- Embeds `Play::play_note`: early-return if a voice for `keycode` exists;
otherwise insert one iff `Key::from_keycode` yields a key. -/
def play_note (active_sinks : List Keycode) (keycode : Keycode) :
    List Keycode :=
  if keycode ∈ active_sinks then active_sinks
  else
    match Key.from_keycode keycode with
    | some _ => keycode :: active_sinks
    | none => active_sinks

/-- Embeds `Play::stop_note`: `active_sinks.remove(&keycode)` (the removed sink is
stopped, which leaves the map itself untouched). -/
def stop_note (active_sinks : List Keycode) (keycode : Keycode) :
    List Keycode :=
  active_sinks.erase keycode

/-! ## src/fx/adsr.rs — the ADSR envelope

Floats that may be NaN (the user-supplied `Adsr` duration fields) are
modelled by `FQ`; finite values are exact rationals. -/

/-- Rust `f32::max(self, 0.0)`: returns the other operand when one is NaN,
so NaN is mapped to `0.0`. -/
def FQ.max0 : FQ → FQ
  | .nan => .val 0
  | .val q => .val (max q 0)

/-- IEEE multiplication on the modelled floats (finite × finite is exact in
ℚ up to rounding, which preserves the sign and zero — all any claim
inspects). -/
def FQ.mul : FQ → FQ → FQ
  | .nan, _ => .nan
  | _, .nan => .nan
  | .val a, .val b => .val (a * b)

/-- Rust `f32::round`: round half away from zero. -/
def rustRound (q : ℚ) : ℤ :=
  if 0 ≤ q then ⌊q + 1/2⌋ else -⌊-q + 1/2⌋

/-- Rust `f32::round` followed by `as u64`; the cast saturates — NaN to 0,
negatives to 0, values beyond `u64::MAX` to `u64::MAX`. -/
def FQ.roundToU64 : FQ → ℕ
  | .nan => 0
  | .val q => min (rustRound q).toNat (2 ^ 64 - 1)

structure Adsr where
  attack_s : FQ
  decay_s : FQ
  sustain : FQ
  release_s : FQ
  deriving Repr, DecidableEq

inductive Stage where
  | attack | decay | sustain | release | done
  deriving Repr, DecidableEq

/-- Embeds `AdsrSource` with its wrapped `input: SynthSource` modelled as the list
of samples the upstream source has yet to produce. -/
structure AdsrSourceState where
  input : List ℚ
  adsr : Adsr
  sample_rate : ℕ
  gate : Bool
  stage : Stage
  stage_pos : ℕ
  current_amp : ℚ
  release_start_amp : ℚ
  deriving Repr, DecidableEq

/-- Embeds `AdsrSource::new`: starts in `Attack` at position 0 with amplitude 0. -/
def AdsrSourceState.new (input : List ℚ) (adsr : Adsr) (sample_rate : ℕ)
    (gate : Bool) : AdsrSourceState :=
  { input, adsr, sample_rate, gate,
    stage := .attack, stage_pos := 0,
    current_amp := 0, release_start_amp := 0 }

/-- Embeds `AdsrSource::stage_len_samples`:
`(seconds.max(0.0) * sample_rate as f32).round() as u64`, with seconds 0.0
for `Sustain`/`Done`.  `sample_rate as f32` is modelled exactly (the cast
rounds only above 2^24, where the product's sign/zero is unaffected). -/
def stage_len_samples (a : Adsr) (sample_rate : ℕ) (stage : Stage) : ℕ :=
  let sr : FQ := .val (sample_rate : ℚ)
  let s : FQ :=
    match stage with
    | .attack => a.attack_s.max0
    | .decay => a.decay_s.max0
    | .release => a.release_s.max0
    | .sustain | .done => .val 0
  (s.mul sr).roundToU64

/-- Embeds `AdsrSource::step_envelope` as written in the source: returns `0.0` and
mutates nothing (the body is literally `0.0`). -/
def step_envelope (st : AdsrSourceState) : ℚ × AdsrSourceState :=
  (0, st)

/-- Embeds `<AdsrSource as Iterator>::next`. -/
def adsrNext (st : AdsrSourceState) : Option ℚ × AdsrSourceState :=
  if st.stage = .done then (none, st)
  else
    match st.input with
    | [] => (none, st)
    | x :: rest =>
      let st1 := { st with input := rest }
      let (env, st2) := step_envelope st1
      let y := x * env
      if st2.stage = .done then (none, st2) else (some y, st2)

/-- Pull `n` samples from an `AdsrSource`, collecting the `next()` results
in order. -/
def adsrRun : ℕ → AdsrSourceState → List (Option ℚ) × AdsrSourceState
  | 0, st => ([], st)
  | n + 1, st =>
    let (o, st1) := adsrNext st
    let (os, st2) := adsrRun n st1
    (o :: os, st2)

/-! ## src/audio_capture.rs — the capture tap

`Matrix<f64>` becomes `List (List ℚ)` (the `f32 → f64` conversion and the
division by `norm = 1.0` are exact).  `Instant::now` stamping is modelled
by the update counter `tapRunCount` returns.  The single `Mutex` around the
`CaptureBuffer` is the `lockOk` flag described at the top of the file. -/

abbrev Matrix := List (List ℚ)

structure CaptureBuffer where
  data : Matrix
  sample_rate : ℕ
  deriving Repr, DecidableEq

/-- Embeds `AudioCapture::new`: a zero-filled `channels × buffer_size` matrix. -/
def CaptureBuffer.new (channels buffer_size sample_rate : ℕ) :
    CaptureBuffer :=
  { data := List.replicate channels (List.replicate buffer_size 0),
    sample_rate }

/-- Embeds `AudioCapture::get_data`: `lock().ok().map(|buf| buf.data.clone())` —
`none` when the lock is poisoned. -/
def get_data (lockOk : Bool) (buf : CaptureBuffer) : Option Matrix :=
  if lockOk then some buf.data else none

/-- Embeds `AudioCapture::get_sample_rate`:
`lock().ok().map(|buf| buf.sample_rate).unwrap_or(48000)`. -/
def get_sample_rate (lockOk : Bool) (buf : CaptureBuffer) : ℕ :=
  if lockOk then buf.sample_rate else 48000

/-- Embeds `out[channel].push(v)` on a `Vec<Vec<f64>>`.  An out-of-bounds channel
would be a Rust panic; it is modelled as a no-op and is unreachable in
`stream_to_matrix` whenever `channels ≥ 1` (the index stays below
`channels`). -/
def pushAt : Matrix → ℕ → ℚ → Matrix
  | [], _, _ => []
  | r :: rs, 0, v => (r ++ [v]) :: rs
  | r :: rs, ch + 1, v => r :: pushAt rs ch v

/-- The `for sample in stream` loop of `stream_to_matrix`, carrying the
running `channel` index and the accumulator `out`. -/
def stmGo (channels : ℕ) (norm : ℚ) : List ℚ → ℕ → Matrix → Matrix
  | [], _, out => out
  | x :: rest, ch, out =>
    stmGo channels norm rest ((ch + 1) % channels) (pushAt out ch (x / norm))

/-- Embeds `stream_to_matrix`: de-interleave `stream` round-robin into `channels`
rows, dividing each sample by `norm`. -/
def stream_to_matrix (stream : List ℚ) (channels : ℕ) (norm : ℚ) : Matrix :=
  stmGo channels norm stream 0 (List.replicate channels [])

/-- Embeds `TapSource` with its wrapped source as the list of samples it has yet
to produce.  `buf` is the shared `CaptureBuffer`'s matrix and `updates`
counts the `buf.last_update = Instant::now()` stamps (wall-clock time
itself is not modelled, only that a stamp occurred). -/
structure TapState where
  src : List ℚ
  sample_buffer : List ℚ
  channels : ℕ
  buf : Matrix
  updates : ℕ
  deriving Repr, DecidableEq

/-- Embeds `<TapSource as Iterator>::next`.  Both `lock()` calls are governed by
`lockOk`; on the first one `?` turns a poisoned lock into `None` (after the
source sample was already consumed and pushed), and `buf.data.first()?`
likewise returns `None` on an empty matrix. -/
def tapNext (lockOk : Bool) (st : TapState) : Option ℚ × TapState :=
  match st.src with
  | [] => (none, st)
  | x :: rest =>
    let st1 := { st with src := rest,
                         sample_buffer := st.sample_buffer ++ [x] }
    if lockOk then
      match st1.buf.head? with
      | none => (none, st1)
      | some row =>
        let buffer_size := row.length
        if buffer_size * st1.channels ≤ st1.sample_buffer.length then
          (some x, { st1 with
            buf := stream_to_matrix st1.sample_buffer st1.channels 1,
            updates := st1.updates + 1,
            sample_buffer := [] })
        else (some x, st1)
    else (none, st1)

/-- Run `tapNext` `n` times with every lock acquisition succeeding. -/
def tapRun : ℕ → TapState → TapState
  | 0, st => st
  | n + 1, st => tapRun n (tapNext true st).2

/-- Reference reading of round-robin de-interleaving, used to state what
`stream_to_matrix` computes: the samples of `s` that land in row `j` when
the running channel index starts at `ch` (the index advances by
`(ch + 1) % c` per sample, exactly as in the loop). -/
def chanTake : List ℚ → ℕ → ℕ → ℕ → List ℚ
  | [], _, _, _ => []
  | x :: rest, c, ch, j =>
    (if ch = j then [x] else []) ++ chanTake rest c ((ch + 1) % c) j

/-- ADSR parameters of the spec's envelope scenario:
attack 0.1 s, decay 0.1 s, sustain 0.5, release 0.1 s. -/
def adsrEx : Adsr :=
  { attack_s := .val (1/10), decay_s := .val (1/10),
    sustain := .val (1/2), release_s := .val (1/10) }

/-- Envelope scenario at sample rate 10 with the gate open and a constant
1.0 input: attack and decay are one sample each, so by the third sample the
intended envelope is in Sustain at amplitude 0.5. -/
def c1Init : AdsrSourceState :=
  AdsrSourceState.new (List.replicate 5 1) adsrEx 10 true

/-- Release scenario at sample rate 10 with the gate already closed and a
constant 1.0 input: the intended envelope releases over
`round(0.1 * 10) = 1` sample and then ends the stream. -/
def c2Init : AdsrSourceState :=
  AdsrSourceState.new [1, 1, 1] adsrEx 10 false

/-- A fresh tap over a 2-channel capture of buffer size 1 whose source
holds one sample: `AudioCapture::new(2, 1, _)` followed by
`create_tap_source(_, 2)`. -/
def tapEx4 : TapState :=
  { src := [1], sample_buffer := [],
    channels := 2, buf := (CaptureBuffer.new 2 1 48000).data, updates := 0 }

/-- A fresh tap (2 channels, buffer size 1) over a source holding one
sample, used to observe `next()` under a poisoned lock. -/
def tapEx7 : TapState :=
  { src := [1], sample_buffer := [],
    channels := 2, buf := (CaptureBuffer.new 2 1 48000).data, updates := 0 }

/-- The tap state `AudioCapture::new(channels, buffer_size, _)` followed by
`create_tap_source(source, channels)` produces: empty scratch, zero-filled
shared matrix, no update stamp yet. -/
def tapInit (channels buffer_size : ℕ) (src : List ℚ) : TapState :=
  { src, sample_buffer := [], channels,
    buf := (CaptureBuffer.new channels buffer_size 48000).data,
    updates := 0 }

/-- The shape a tap state keeps while running over a `channels = c`,
`buffer_size = n` capture: the shared matrix always has `c` rows of `n`
samples each, the scratch holds fewer than `n * c` samples, and the matrix
is either still the zero-filled initial one or a complete replacement
built from a full block of exactly `n * c` samples. -/
def TapGood (c n : ℕ) (st : TapState) : Prop :=
  st.channels = c ∧
  st.buf.length = c ∧
  (∀ r ∈ st.buf, r.length = n) ∧
  st.sample_buffer.length < n * c ∧
  (st.buf = (CaptureBuffer.new c n 48000).data ∨
    ∃ s : List ℚ, s.length = n * c ∧ st.buf = stream_to_matrix s c 1)

/-- The seconds value `stage_len_samples` selects for a stage, before the
`max(0.0)` clamp (`Sustain`/`Done` use the literal `0.0`). -/
def Adsr.stageSeconds (a : Adsr) : Stage → FQ
  | .attack => a.attack_s
  | .decay => a.decay_s
  | .release => a.release_s
  | .sustain | .done => .val 0

/-! ## Theorems -/

/-- Helper: `noteOfValue` decodes what `Note.semitone` encodes. -/
theorem noteOfValue_semitone (n : Note) : noteOfValue n.semitone = n := by
  cases n <;> rfl

/-- Division and remainder facts for the twelve semitone offsets. -/
theorem semitone_euclid (o : ℤ) (n : Note) :
    (o * 12 + n.semitone + 12) % 12 = n.semitone ∧
    (o * 12 + n.semitone + 12) / 12 = o + 1 ∧
    (o * 12 + n.semitone + 0) % 12 = n.semitone ∧
    (o * 12 + n.semitone + 0) / 12 = o := by
  cases n <;> simp only [Note.semitone] <;>
    refine ⟨by omega, by omega, by omega, by omega⟩

/-- C5: for every key (any note, any octave, negative absolute semitones
included), `transpose 12` adds exactly 12 to `absolute_semitone` and keeps
the note, and `transpose 0` is the identity. -/
theorem Key.transpose_twelve_add_zero_id (k : Key) :
    (k.transpose 12).absolute_semitone = k.absolute_semitone + 12 ∧
    (k.transpose 12).note = k.note ∧
    k.transpose 0 = k := by
  obtain ⟨n, o⟩ := k
  obtain ⟨h1, h2, h3, h4⟩ := semitone_euclid o n
  simp only [Key.transpose, Key.absolute_semitone, Key.new,
    SEMITONES_PER_OCTAVE] at *
  rw [h1, h2, h3, h4, noteOfValue_semitone]
  refine ⟨by ring, rfl, rfl⟩

/-- C6 counterexample to the original claim: Rust's `f32::clamp`
propagates NaN (`NaN < 0.0` and `NaN > 1.0` are both false), so
`set_volume(f32::NAN)` stores NaN — a write after which the stored volume
is not in `[0, 1]` (it is no finite value at all). -/
theorem set_volume_nan_escapes_range :
    (AudioState.new.set_volume FQ.nan).volume = FQ.nan ∧
    ¬ ∃ q : ℚ, (AudioState.new.set_volume FQ.nan).volume = FQ.val q ∧
        0 ≤ q ∧ q ≤ 1 := by
  refine ⟨rfl, ?_⟩
  rintro ⟨q, hq, -, -⟩
  simp [AudioState.set_volume, FQ.clamp, AudioState.new] at hq

/-- C6 (amended): for every non-NaN float `v`, `set_volume` stores exactly
`clamp(v, 0, 1)` (the mathematical clamp `max 0 (min 1 v)`), which lies in
`[0, 1]`; `set_volume 1.5` stores `1`, `set_volume (-1)` stores `0`, the
initial volume is `1`, and a NaN write stores NaN (Rust's `f32::clamp`
propagates NaN). -/
theorem set_volume_clamps (s : AudioState) (v : ℚ) :
    (s.set_volume (FQ.val v)).volume = FQ.val (rustClamp v 0 1) ∧
    rustClamp v 0 1 = max 0 (min 1 v) ∧
    0 ≤ rustClamp v 0 1 ∧ rustClamp v 0 1 ≤ 1 ∧
    (s.set_volume (FQ.val (3/2))).volume = FQ.val 1 ∧
    (s.set_volume (FQ.val (-1))).volume = FQ.val 0 ∧
    AudioState.new.volume = FQ.val 1 ∧
    (s.set_volume FQ.nan).volume = FQ.nan := by
  have hcl : rustClamp v 0 1 = max 0 (min 1 v) := by
    simp only [rustClamp, max_def, min_def]
    split_ifs <;> linarith
  have hrange : 0 ≤ rustClamp v 0 1 ∧ rustClamp v 0 1 ≤ 1 := by
    rw [hcl]
    constructor
    · exact le_max_left 0 _
    · exact max_le (by norm_num) (min_le_left 1 v)
  refine ⟨rfl, hcl, hrange.1, hrange.2,
    by norm_num [AudioState.set_volume, FQ.clamp, rustClamp],
    by norm_num [AudioState.set_volume, FQ.clamp, rustClamp], rfl, rfl⟩

/-- Helper: `play_note` leaves the map alone when a voice for the key exists. -/
theorem play_note_mem (sinks : List Keycode) (k : Keycode)
    (h : k ∈ sinks) : play_note sinks k = sinks := by
  simp [play_note, h]

/-- Helper: `play_note` records a fresh voice when none exists and the keycode maps
to a key. -/
theorem play_note_not_mem_some (sinks : List Keycode) (k : Keycode)
    (key : Key) (h : k ∉ sinks) (hf : Key.from_keycode k = some key) :
    play_note sinks k = k :: sinks := by
  simp [play_note, h, hf]

/-- Helper: `play_note` does nothing for keycodes outside the keyboard mapping. -/
theorem play_note_not_mem_none (sinks : List Keycode) (k : Keycode)
    (h : k ∉ sinks) (hf : Key.from_keycode k = none) :
    play_note sinks k = sinks := by
  simp [play_note, h, hf]

/-- C3: a second `play_note` for the same identity with no intervening
`stop_note` is a no-op on the voice map; when the identity maps to a key
and had no voice, exactly one voice for it exists afterwards; and the map
keeps at most one voice per identity (`Nodup` is preserved, so every count
is at most one). -/
theorem play_note_idempotent_one_voice (sinks : List Keycode) (k : Keycode) :
    play_note (play_note sinks k) k = play_note sinks k ∧
    (sinks.Nodup → (play_note sinks k).Nodup) ∧
    (∀ key, Key.from_keycode k = some key → k ∉ sinks →
      (play_note sinks k).count k = 1) ∧
    (sinks.Nodup → ∀ j, (play_note sinks k).count j ≤ 1) := by
  by_cases hk : k ∈ sinks
  · rw [play_note_mem sinks k hk, play_note_mem sinks k hk]
    exact ⟨rfl, fun h => h,
      fun key _ hnk => absurd hk hnk,
      fun h j => List.nodup_iff_count_le_one.mp h j⟩
  · cases hf : Key.from_keycode k with
    | none =>
      rw [play_note_not_mem_none sinks k hk hf,
        play_note_not_mem_none sinks k hk hf]
      exact ⟨rfl, fun h => h,
        fun key hkey => by simp [hf] at hkey,
        fun h j => List.nodup_iff_count_le_one.mp h j⟩
    | some key0 =>
      rw [play_note_not_mem_some sinks k key0 hk hf]
      refine ⟨play_note_mem _ k (List.mem_cons_self k sinks), ?_, ?_, ?_⟩
      · exact fun h => List.nodup_cons.mpr ⟨hk, h⟩
      · intro key _ _
        simp [List.count_cons_self, List.count_eq_zero_of_not_mem hk]
      · intro h j
        exact List.nodup_iff_count_le_one.mp (List.nodup_cons.mpr ⟨hk, h⟩) j

/-- Witness for C3 at a concrete input: pressing `S` while only `A` holds a
voice keeps the map duplicate-free and yields exactly one voice for `S`. -/
theorem play_note_idempotent_one_voice_witness :
    [Keycode.A].Nodup ∧
    Key.from_keycode Keycode.S = some (Key.new Note.D 4) ∧
    Keycode.S ∉ [Keycode.A] ∧
    (play_note [Keycode.A] Keycode.S).Nodup ∧
    (play_note [Keycode.A] Keycode.S).count Keycode.S = 1 :=
  ⟨by decide, by decide, by decide,
    (play_note_idempotent_one_voice [Keycode.A] Keycode.S).2.1 (by decide),
    (play_note_idempotent_one_voice [Keycode.A] Keycode.S).2.2.1
      (Key.new Note.D 4) (by decide) (by decide)⟩

/-- C9: `stop_note` for an identity holding no voice leaves the voice map
unchanged (and, being total, raises no fault). -/
theorem stop_note_no_voice_noop (sinks : List Keycode) (k : Keycode)
    (h : k ∉ sinks) : stop_note sinks k = sinks :=
  List.erase_of_not_mem h

/-- Witness for C9: stopping `S` while only `A` holds a voice changes
nothing. -/
theorem stop_note_no_voice_noop_witness :
    Keycode.S ∉ [Keycode.A] ∧ stop_note [Keycode.A] Keycode.S = [Keycode.A] :=
  ⟨by decide, stop_note_no_voice_noop [Keycode.A] Keycode.S (by decide)⟩

/-- C8: `stage_len_samples` always yields a (non-negative) natural sample
count, and the count is 0 whenever the sample rate is 0 or the stage's
seconds value is negative or NaN. -/
theorem stage_len_samples_safe (a : Adsr) (sr : ℕ) (st : Stage) :
    (sr = 0 → stage_len_samples a sr st = 0) ∧
    (a.stageSeconds st = FQ.nan → stage_len_samples a sr st = 0) ∧
    (∀ q, a.stageSeconds st = FQ.val q → q < 0 →
      stage_len_samples a sr st = 0) := by
  have h0 : FQ.roundToU64 (FQ.val 0) = 0 := by
    norm_num [FQ.roundToU64, rustRound]
  refine ⟨?_, ?_, ?_⟩
  · intro h; subst h
    cases st
    case attack =>
      cases h : a.attack_s <;>
        simp [stage_len_samples, h, FQ.max0, FQ.mul, mul_zero, h0]
    case decay =>
      cases h : a.decay_s <;>
        simp [stage_len_samples, h, FQ.max0, FQ.mul, mul_zero, h0]
    case release =>
      cases h : a.release_s <;>
        simp [stage_len_samples, h, FQ.max0, FQ.mul, mul_zero, h0]
    case sustain => simp [stage_len_samples, FQ.mul, zero_mul, h0]
    case done => simp [stage_len_samples, FQ.mul, zero_mul, h0]
  · intro h
    cases st
    case attack =>
      simp only [Adsr.stageSeconds] at h
      simp [stage_len_samples, h, FQ.max0, FQ.mul, zero_mul, h0]
    case decay =>
      simp only [Adsr.stageSeconds] at h
      simp [stage_len_samples, h, FQ.max0, FQ.mul, zero_mul, h0]
    case release =>
      simp only [Adsr.stageSeconds] at h
      simp [stage_len_samples, h, FQ.max0, FQ.mul, zero_mul, h0]
    case sustain => simp [Adsr.stageSeconds] at h
    case done => simp [Adsr.stageSeconds] at h
  · intro q hq hlt
    cases st
    case attack =>
      simp only [Adsr.stageSeconds] at hq
      simp [stage_len_samples, hq, FQ.max0, FQ.mul,
        max_eq_right hlt.le, zero_mul, h0]
    case decay =>
      simp only [Adsr.stageSeconds] at hq
      simp [stage_len_samples, hq, FQ.max0, FQ.mul,
        max_eq_right hlt.le, zero_mul, h0]
    case release =>
      simp only [Adsr.stageSeconds] at hq
      simp [stage_len_samples, hq, FQ.max0, FQ.mul,
        max_eq_right hlt.le, zero_mul, h0]
    case sustain =>
      simp only [Adsr.stageSeconds, FQ.val.injEq] at hq
      exact absurd hlt (by rw [← hq]; exact lt_irrefl 0)
    case done =>
      simp only [Adsr.stageSeconds, FQ.val.injEq] at hq
      exact absurd hlt (by rw [← hq]; exact lt_irrefl 0)

/-- Witness for C8: a negative attack and a NaN decay both give length 0,
as does sample rate 0 with a positive release. -/
theorem stage_len_samples_safe_witness :
    stage_len_samples ⟨FQ.val (-1), FQ.nan, FQ.val (1/2), FQ.val 2⟩
        48000 Stage.attack = 0 ∧
    stage_len_samples ⟨FQ.val (-1), FQ.nan, FQ.val (1/2), FQ.val 2⟩
        48000 Stage.decay = 0 ∧
    stage_len_samples ⟨FQ.val (-1), FQ.nan, FQ.val (1/2), FQ.val 2⟩
        0 Stage.release = 0 :=
  ⟨(stage_len_samples_safe ⟨FQ.val (-1), FQ.nan, FQ.val (1/2), FQ.val 2⟩
      48000 Stage.attack).2.2 (-1) rfl (by norm_num),
   (stage_len_samples_safe ⟨FQ.val (-1), FQ.nan, FQ.val (1/2), FQ.val 2⟩
      48000 Stage.decay).2.1 rfl,
   (stage_len_samples_safe ⟨FQ.val (-1), FQ.nan, FQ.val (1/2), FQ.val 2⟩
      0 Stage.release).1 rfl⟩

/-- C1 (code-bug evidence): in the spec's scenario — gate open,
attack 0.1 s, decay 0.1 s, sustain 0.5, rate 10 Hz, constant 1.0 input —
attack and decay are one sample each, so the intended envelope holds 0.5
from the third sample on; the code instead outputs 0.0 for every sample
(its `step_envelope` returns 0.0) and never leaves `Attack`. -/
theorem adsr_envelope_stubbed_c1 :
    stage_len_samples c1Init.adsr 10 Stage.attack = 1 ∧
    stage_len_samples c1Init.adsr 10 Stage.decay = 1 ∧
    (adsrRun 5 c1Init).1 = List.replicate 5 (some 0) ∧
    (adsrRun 5 c1Init).2.stage = Stage.attack ∧
    (adsrRun 5 c1Init).2.current_amp = 0 := by
  simp [stage_len_samples, c1Init, adsrEx, AdsrSourceState.new,
    FQ.max0, FQ.mul, FQ.roundToU64,
    adsrRun, adsrNext, step_envelope, List.replicate]
  norm_num [rustRound]

/-- C2 (code-bug evidence): with the gate already closed and release 0.1 s
at rate 10 Hz, the intended envelope enters Release at the first sample and
the stream ends after `round(0.1 * 10) = 1` release sample; the code never
transitions (stage stays `Attack`) and keeps yielding samples. -/
theorem adsr_gate_ignored_c2 :
    c2Init.gate = false ∧
    stage_len_samples c2Init.adsr 10 Stage.release = 1 ∧
    (adsrRun 3 c2Init).1 = [some 0, some 0, some 0] ∧
    (adsrRun 3 c2Init).2.stage = Stage.attack := by
  simp [stage_len_samples, c2Init, adsrEx, AdsrSourceState.new,
    FQ.max0, FQ.mul, FQ.roundToU64,
    adsrRun, adsrNext, step_envelope]
  norm_num [rustRound]

/-- C10: `toggle_muted` flips the stored mute flag and returns the new
value, and toggling twice restores the original stored state. -/
theorem toggle_muted_involution (s : AudioState) :
    s.toggle_muted.2 = !s.paused ∧
    s.toggle_muted.1.paused = !s.paused ∧
    s.toggle_muted.1.toggle_muted.1.paused = s.paused ∧
    s.toggle_muted.1.toggle_muted.2 = s.paused := by
  simp [AudioState.toggle_muted]

/-- A zero-filled matrix has only `[]`-free rows; any `getD` of the all-[]
accumulator is `[]`. -/
theorem replicate_nil_getD (c j : ℕ) :
    (List.replicate c ([] : List ℚ)).getD j [] = [] := by
  induction c generalizing j with
  | zero => simp [List.getD]
  | succ c ih =>
    cases j with
    | zero => simp [List.replicate]
    | succ j => simp only [List.replicate, List.getD_cons_succ]; exact ih j

/-- Helper: `pushAt` preserves the number of rows. -/
theorem pushAt_length (out : Matrix) (ch : ℕ) (v : ℚ) :
    (pushAt out ch v).length = out.length := by
  induction out generalizing ch with
  | nil => rfl
  | cons r rs ih =>
    cases ch with
    | zero => rfl
    | succ ch => simpa [pushAt] using ih ch

/-- Helper: `pushAt` appends to the addressed row. -/
theorem pushAt_getD_self (out : Matrix) (ch : ℕ) (v : ℚ)
    (h : ch < out.length) :
    (pushAt out ch v).getD ch [] = out.getD ch [] ++ [v] := by
  induction out generalizing ch with
  | nil => simp at h
  | cons r rs ih =>
    cases ch with
    | zero => simp [pushAt]
    | succ ch =>
      simp only [pushAt, List.getD_cons_succ]
      exact ih ch (by simpa using h)

/-- Helper: `pushAt` leaves every other row alone. -/
theorem pushAt_getD_ne (out : Matrix) (ch j : ℕ) (v : ℚ) (h : j ≠ ch) :
    (pushAt out ch v).getD j [] = out.getD j [] := by
  induction out generalizing ch j with
  | nil => rfl
  | cons r rs ih =>
    cases ch with
    | zero =>
      cases j with
      | zero => exact absurd rfl h
      | succ j => simp [pushAt]
    | succ ch =>
      cases j with
      | zero => simp [pushAt]
      | succ j =>
        simp only [pushAt, List.getD_cons_succ]
        exact ih ch j (fun hj => h (by rw [hj]))

/-- The de-interleaving loop preserves the number of rows. -/
theorem stmGo_length (c : ℕ) (norm : ℚ) (s : List ℚ) (ch : ℕ) (out : Matrix) :
    (stmGo c norm s ch out).length = out.length := by
  induction s generalizing ch out with
  | nil => rfl
  | cons x rest ih =>
    simp only [stmGo]
    rw [ih, pushAt_length]

/-- Row contents of the de-interleaving loop: each row ends up as its
starting content followed by the samples `chanTake` assigns to it. -/
theorem stmGo_getD (c : ℕ) (hc : 1 ≤ c) (s : List ℚ) :
    ∀ (ch : ℕ) (out : Matrix), out.length = c → ch < c → ∀ j,
      (stmGo c 1 s ch out).getD j [] = out.getD j [] ++ chanTake s c ch j := by
  induction s with
  | nil => intro ch out _ _ j; simp [stmGo, chanTake]
  | cons x rest ih =>
    intro ch out hlen hch j
    have hmod : (ch + 1) % c < c := Nat.mod_lt _ (by omega)
    have hplen : (pushAt out ch (x / 1)).length = c := by
      rw [pushAt_length]; exact hlen
    simp only [stmGo, chanTake]
    rw [ih ((ch + 1) % c) (pushAt out ch (x / 1)) hplen hmod j]
    by_cases hj : j = ch
    · subst hj
      rw [pushAt_getD_self out j (x / 1) (hlen ▸ hch), if_pos rfl,
        div_one, List.append_assoc]
    · rw [pushAt_getD_ne out ch j (x / 1) hj,
        if_neg (fun h => hj h.symm)]
      simp

/-- Rows below the running channel index receive nothing for the rest of
the current frame: once the index has passed `j`, row `j` next receives a
sample only after the index wraps to 0. -/
theorem chanTake_skip (c : ℕ) (t : List ℚ) :
    ∀ (rest : List ℚ) (ch j : ℕ), ch < c → ch + t.length = c → j < ch →
      chanTake (t ++ rest) c ch j = chanTake rest c 0 j := by
  induction t with
  | nil =>
    intro rest ch j hch hlen hj
    simp only [List.length_nil] at hlen
    omega
  | cons x t ih =>
    intro rest ch j hch hlen hj
    simp only [List.length_cons] at hlen
    simp only [List.cons_append, chanTake, if_neg (by omega : ¬ch = j),
      List.nil_append]
    by_cases hc1 : ch + 1 = c
    · have ht : t = [] := List.length_eq_zero.mp (by omega)
      subst ht
      rw [hc1, Nat.mod_self]
      simp
    · rw [Nat.mod_eq_of_lt (by omega)]
      exact ih rest (ch + 1) j (by omega) (by omega) (by omega)

/-- Within one frame of `c` samples that runs the channel index from `ch`
up to `c - 1`, row `j ≥ ch` receives exactly the sample at offset
`j - ch`, and the index then wraps to 0. -/
theorem chanTake_frame_from (c : ℕ) (t : List ℚ) :
    ∀ (rest : List ℚ) (ch j : ℕ), ch + t.length = c → ch ≤ j → j < c →
      chanTake (t ++ rest) c ch j
        = t.getD (j - ch) 0 :: chanTake rest c 0 j := by
  induction t with
  | nil =>
    intro rest ch j hlen hle hj
    simp only [List.length_nil] at hlen
    omega
  | cons x t ih =>
    intro rest ch j hlen hle hj
    simp only [List.length_cons] at hlen
    by_cases hcj : ch = j
    · subst hcj
      have hstep : chanTake ((x :: t) ++ rest) c ch ch
          = x :: chanTake (t ++ rest) c ((ch + 1) % c) ch := by
        simp [chanTake]
      rw [hstep, Nat.sub_self, List.getD_cons_zero]
      congr 1
      by_cases hc1 : ch + 1 = c
      · have ht : t = [] := List.length_eq_zero.mp (by omega)
        subst ht
        rw [hc1, Nat.mod_self]
        simp [chanTake]
      · rw [Nat.mod_eq_of_lt (by omega)]
        exact chanTake_skip c t rest (ch + 1) ch (by omega) (by omega)
          (by omega)
    · have hlt : ch < j := by omega
      simp only [List.cons_append, chanTake, if_neg hcj, List.nil_append]
      rw [Nat.mod_eq_of_lt (by omega)]
      have hidx : j - ch = (j - (ch + 1)) + 1 := by omega
      rw [hidx, List.getD_cons_succ]
      exact ih rest (ch + 1) j (by omega) (by omega) hj

/-- One full frame from channel 0: row `j` gets exactly the frame's `j`-th
sample, then de-interleaving continues from channel 0. -/
theorem chanTake_frame (c : ℕ) (t rest : List ℚ) (j : ℕ)
    (hlen : t.length = c) (hj : j < c) :
    chanTake (t ++ rest) c 0 j = t.getD j 0 :: chanTake rest c 0 j := by
  have h := chanTake_frame_from c t rest 0 j (by omega) (Nat.zero_le j) hj
  simpa using h

/-- De-interleaving a block of exactly `n * c` samples gives row `j` (for
`j < c`) exactly `n` samples, the `q`-th being sample `q * c + j` of the
block. -/
theorem chanTake_block (c : ℕ) :
    ∀ (n : ℕ) (s : List ℚ) (j : ℕ), j < c → s.length = n * c →
      (chanTake s c 0 j).length = n ∧
      ∀ q, q < n → (chanTake s c 0 j).getD q 0 = s.getD (q * c + j) 0 := by
  intro n
  induction n with
  | zero =>
    intro s j hj hs
    have hnil : s = [] := List.length_eq_zero.mp (by simpa using hs)
    subst hnil
    exact ⟨by simp [chanTake], fun q hq => by omega⟩
  | succ n ih =>
    intro s j hj hs
    have hsl : s.length = n * c + c := by rw [hs, Nat.succ_mul]
    obtain ⟨t, d, rfl, htl, hdl⟩ :
        ∃ t d, s = t ++ d ∧ t.length = c ∧ d.length = n * c := by
      refine ⟨s.take c, s.drop c, (List.take_append_drop c s).symm, ?_, ?_⟩
      · rw [List.length_take]; omega
      · rw [List.length_drop]; omega
    obtain ⟨ihl, ihe⟩ := ih d j hj hdl
    rw [chanTake_frame c t d j htl hj]
    refine ⟨by simp [ihl], ?_⟩
    intro q hq
    cases q with
    | zero =>
      rw [List.getD_cons_zero, zero_mul, zero_add,
        List.getD_append t d 0 j (by omega)]
    | succ q =>
      have hq1 : (q + 1) * c = q * c + c := Nat.succ_mul q c
      rw [List.getD_cons_succ, ihe q (by omega), hq1,
        List.getD_append_right t d 0 (q * c + c + j) (by omega)]
      congr 1
      omega

/-- Helper: `stream_to_matrix` has `channels` rows, row `j` being exactly the
samples `chanTake` assigns to channel `j`. -/
theorem stream_to_matrix_rows (s : List ℚ) (c : ℕ) (hc : 1 ≤ c) :
    (stream_to_matrix s c 1).length = c ∧
    ∀ j, j < c → (stream_to_matrix s c 1).getD j [] = chanTake s c 0 j := by
  constructor
  · rw [stream_to_matrix, stmGo_length, List.length_replicate]
  · intro j hj
    rw [stream_to_matrix,
      stmGo_getD c hc s 0 (List.replicate c []) (List.length_replicate c [])
        (by omega) j,
      replicate_nil_getD, List.nil_append]

/-- Unfolding `tapRun` from the back: the state after `k + 1` steps is one
step past the state after `k`. -/
theorem tapRun_succ_back (k : ℕ) (st : TapState) :
    tapRun (k + 1) st = (tapNext true (tapRun k st)).2 := by
  induction k generalizing st with
  | zero => rfl
  | succ k ih =>
    show tapRun (k + 1) (tapNext true st).2 = _
    rw [ih (tapNext true st).2]
    rfl

/-- Every row of a full-block de-interleave has exactly `n` samples. -/
theorem stream_to_matrix_mem_length (s : List ℚ) (c n : ℕ) (hc : 1 ≤ c)
    (hs : s.length = n * c) :
    ∀ r ∈ stream_to_matrix s c 1, r.length = n := by
  obtain ⟨hlen, hrow⟩ := stream_to_matrix_rows s c hc
  intro r hr
  obtain ⟨j, hj, hget⟩ := List.mem_iff_getElem.mp hr
  have hjc : j < c := by omega
  have hgd : (stream_to_matrix s c 1).getD j [] = r := by
    rw [List.getD_eq_getElem _ _ hj]; exact hget
  rw [hrow j hjc] at hgd
  rw [← hgd]
  exact (chanTake_block c n s j hjc hs).1

/-- One `next()` step of a tap whose source still has a sample, written
out for explicit record states. -/
theorem tapNext_cons (x : ℚ) (rest scratch : List ℚ) (c : ℕ) (M : Matrix)
    (u : ℕ) (row : List ℚ) (hM : M.head? = some row) :
    tapNext true ⟨x :: rest, scratch, c, M, u⟩ =
      if row.length * c ≤ (scratch ++ [x]).length then
        (some x, ⟨rest, [], c, stream_to_matrix (scratch ++ [x]) c 1, u + 1⟩)
      else
        (some x, ⟨rest, scratch ++ [x], c, M, u⟩) := by
  simp only [tapNext, hM]
  split_ifs <;> rfl

/-- The head row of the zero-filled initial matrix. -/
theorem capture_new_head (c n : ℕ) (hc : 1 ≤ c) :
    ((CaptureBuffer.new c n 48000).data).head? = some (List.replicate n 0) := by
  obtain ⟨c', rfl⟩ : ∃ c', c = c' + 1 := ⟨c - 1, by omega⟩
  simp [CaptureBuffer.new, List.replicate_succ]

/-- Trajectory of a fresh tap through its first block: for the first
`n * c - 1` samples only the scratch grows; at exactly `n * c` samples the
shared matrix is replaced by the de-interleave of the block and the scratch
is cleared, stamping the first update. -/
theorem tapRun_first_block (c n : ℕ) (hc : 1 ≤ c) (hn : 1 ≤ n)
    (src : List ℚ) : ∀ k, k ≤ n * c → k ≤ src.length →
    tapRun k (tapInit c n src) =
      if k < n * c then
        { src := src.drop k, sample_buffer := src.take k, channels := c,
          buf := (CaptureBuffer.new c n 48000).data, updates := 0 }
      else
        { src := src.drop k, sample_buffer := [], channels := c,
          buf := stream_to_matrix (src.take (n * c)) c 1, updates := 1 } := by
  have hnc : 1 ≤ n * c := Nat.mul_pos (by omega) (by omega)
  intro k
  induction k with
  | zero =>
    intro _ _
    rw [if_pos (by omega)]
    simp [tapRun, tapInit]
  | succ k ih =>
    intro hk hksrc
    have hk' : k < n * c := by omega
    have hklen : k < src.length := by omega
    rw [tapRun_succ_back, ih (by omega) (by omega), if_pos hk']
    have hdrop : src.drop k = src[k] :: src.drop (k + 1) :=
      List.drop_eq_getElem_cons hklen
    have htake : src.take k ++ [src[k]] = src.take (k + 1) := by
      rw [List.take_succ, List.getElem?_eq_getElem hklen]
      rfl
    have htlen : (src.take (k + 1)).length = k + 1 :=
      List.length_take_of_le (by omega)
    rw [hdrop, tapNext_cons src[k] (src.drop (k + 1)) (src.take k) c _ 0
      (List.replicate n 0) (capture_new_head c n hc), htake]
    rw [List.length_replicate, htlen]
    by_cases hend : n * c ≤ k + 1
    · have hke : k + 1 = n * c := by omega
      rw [if_pos hend, if_neg (by omega)]
      rw [hke]
    · rw [if_neg hend, if_pos (by omega)]

/-- One successful `next()` keeps a tap state well-shaped. -/
theorem tapNext_preserves_good (c n : ℕ) (hc : 1 ≤ c) (hn : 1 ≤ n)
    (st : TapState) (h : TapGood c n st) : TapGood c n (tapNext true st).2 := by
  obtain ⟨src, scratch, ch, M, u⟩ := st
  obtain ⟨hch, hMl, hrows, hsb, hdisj⟩ := h
  simp only at hch hMl hrows hsb hdisj
  cases src with
  | nil => exact ⟨hch, hMl, hrows, hsb, hdisj⟩
  | cons x rest =>
    rw [show ch = c from hch]
    have hMne : M ≠ [] := List.ne_nil_of_length_pos (by omega)
    have hhead : M.head? = some (M.head hMne) := List.head?_eq_head hMne
    have hrowlen : (M.head hMne).length = n := hrows _ (List.head_mem hMne)
    rw [tapNext_cons x rest scratch c M u (M.head hMne) hhead]
    by_cases hfull : (M.head hMne).length * c ≤ (scratch ++ [x]).length
    · rw [if_pos hfull]
      have hslen : (scratch ++ [x]).length = n * c := by
        rw [hrowlen] at hfull
        simp only [List.length_append, List.length_singleton] at hfull ⊢
        omega
      refine ⟨rfl, (stream_to_matrix_rows _ c hc).1,
        stream_to_matrix_mem_length _ c n hc hslen,
        by simpa using Nat.mul_pos (show 0 < n by omega) (show 0 < c by omega),
        Or.inr ⟨scratch ++ [x], hslen, rfl⟩⟩
    · rw [if_neg hfull]
      have hlt : (scratch ++ [x]).length < n * c := by
        rw [hrowlen] at hfull
        omega
      exact ⟨rfl, hMl, hrows, hlt, hdisj⟩

/-- Every state reachable from a fresh tap is well-shaped: a reader only
ever sees the zero-filled initial matrix or a complete replacement built
from exactly one full block. -/
theorem tapRun_good (c n : ℕ) (hc : 1 ≤ c) (hn : 1 ≤ n) (src : List ℚ) :
    ∀ k, TapGood c n (tapRun k (tapInit c n src)) := by
  intro k
  induction k with
  | zero =>
    show TapGood c n (tapInit c n src)
    refine ⟨rfl, by simp [tapInit, CaptureBuffer.new], ?_, ?_, Or.inl rfl⟩
    · intro r hr
      simp only [tapInit, CaptureBuffer.new] at hr
      rw [(List.mem_replicate.mp hr).2, List.length_replicate]
    · simpa [tapInit] using Nat.mul_pos (by omega : 0 < n) (by omega : 0 < c)
  | succ k ih =>
    rw [tapRun_succ_back]
    exact tapNext_preserves_good c n hc hn _ ih

/-- C4 (amended): for a tap with `c ≥ 1` channels over a capture buffer of
size `n`, (1) de-interleaving a full block of `n * c` samples yields `c`
rows of exactly `n` samples with sample `i` at row `i % c`, position
`i / c`; (2) once the scratch reaches exactly `n * c` samples the shared
matrix is wholly replaced by that de-interleave and the scratch cleared;
(3) a reader only ever observes the zero-filled initial matrix or a
complete replacement built from one full block; and (4) after
`n * c` (= `buffer_size * channel_count`, not `buffer_size`) samples have
been tapped, at least one snapshot update has occurred. -/
theorem tap_snapshot_complete (c n : ℕ) (hc : 1 ≤ c) (hn : 1 ≤ n)
    (src : List ℚ) :
    (∀ s : List ℚ, s.length = n * c →
      (stream_to_matrix s c 1).length = c ∧
      (∀ j, j < c → ((stream_to_matrix s c 1).getD j []).length = n) ∧
      (∀ i, i < n * c →
        ((stream_to_matrix s c 1).getD (i % c) []).getD (i / c) 0
          = s.getD i 0)) ∧
    (n * c ≤ src.length →
      tapRun (n * c) (tapInit c n src) =
        { src := src.drop (n * c), sample_buffer := [], channels := c,
          buf := stream_to_matrix (src.take (n * c)) c 1, updates := 1 }) ∧
    (∀ k, (tapRun k (tapInit c n src)).buf
        = (CaptureBuffer.new c n 48000).data ∨
      ∃ s : List ℚ, s.length = n * c ∧
        (tapRun k (tapInit c n src)).buf = stream_to_matrix s c 1) ∧
    (n * c ≤ src.length →
      1 ≤ (tapRun (n * c) (tapInit c n src)).updates) := by
  have hfull : n * c ≤ src.length →
      tapRun (n * c) (tapInit c n src) =
        { src := src.drop (n * c), sample_buffer := [], channels := c,
          buf := stream_to_matrix (src.take (n * c)) c 1, updates := 1 } := by
    intro h
    rw [tapRun_first_block c n hc hn src (n * c) le_rfl h,
      if_neg (lt_irrefl _)]
  refine ⟨?_, hfull, ?_, ?_⟩
  · intro s hs
    obtain ⟨hlen, hrow⟩ := stream_to_matrix_rows s c hc
    refine ⟨hlen, ?_, ?_⟩
    · intro j hj
      rw [hrow j hj]
      exact (chanTake_block c n s j hj hs).1
    · intro i hi
      have hj : i % c < c := Nat.mod_lt _ (by omega)
      have hq : i / c < n := by
        rw [Nat.div_lt_iff_lt_mul (by omega : 0 < c)]
        exact hi
      rw [hrow (i % c) hj,
        (chanTake_block c n s (i % c) hj hs).2 (i / c) hq]
      congr 1
      rw [Nat.mul_comm]
      exact Nat.div_add_mod i c
  · intro k
    exact (tapRun_good c n hc hn src k).2.2.2.2
  · intro h
    rw [hfull h]

/-- Witness for C4 at a concrete input: 2 channels, buffer size 1, source
`[3, 5]`; after `1 * 2` tapped samples one update has occurred. -/
theorem tap_snapshot_complete_witness :
    1 ≤ 2 ∧ 1 ≤ 1 ∧ 1 * 2 ≤ ([3, 5] : List ℚ).length ∧
    1 ≤ (tapRun (1 * 2) (tapInit 2 1 [3, 5])).updates :=
  ⟨by norm_num, le_rfl, by simp,
    (tap_snapshot_complete 2 1 (by norm_num) le_rfl [3, 5]).2.2.2 (by simp)⟩

/-- C4 counterexample to the original claim's last part: with 2 channels
and buffer size 1, after `buffer_size = 1` samples have been tapped no
snapshot update has occurred (the source sample was consumed, yet the
shared matrix is still the initial one and nothing was stamped — the
update fires only at `buffer_size * channel_count = 2` samples). -/
theorem tap_buffer_size_alone_no_update :
    (tapRun 1 tapEx4).updates = 0 ∧
    (tapRun 1 tapEx4).src = [] ∧
    (tapRun 1 tapEx4).buf = (CaptureBuffer.new 2 1 48000).data := by
  refine ⟨?_, ?_, ?_⟩ <;>
    simp [tapRun, tapNext, tapEx4, CaptureBuffer.new]

/-- C7 counterexample: with the capture mutex poisoned, `next()` consumes
the source's sample yet returns `none` — the tapped stream ends instead of
continuing to deliver its source's samples to the backend. -/
theorem tap_poisoned_ends_stream :
    tapEx7.src = [1] ∧
    (tapNext false tapEx7).1 = none ∧
    (tapNext false tapEx7).2.src = [] := by
  refine ⟨rfl, ?_, ?_⟩ <;> simp [tapNext, tapEx7]

/-- C7 (amended): a poisoned lock never faults but does not keep the tap
delivering: `get_data` returns `none` (no panic), `get_sample_rate` falls
back to the valid default 48000, and the tapped stream terminates —
`next()` returns `none` while leaving the shared matrix and update stamp
untouched. -/
theorem lock_poisoned_safe_defaults (buf : CaptureBuffer) (st : TapState) :
    get_data false buf = none ∧
    get_sample_rate false buf = 48000 ∧
    (tapNext false st).1 = none ∧
    (tapNext false st).2.buf = st.buf ∧
    (tapNext false st).2.updates = st.updates := by
  refine ⟨rfl, rfl, ?_, ?_, ?_⟩ <;>
    · obtain ⟨src, scratch, ch, M, u⟩ := st
      cases src <;> simp [tapNext]

end Mugen
